import Mathlib

/-!
# Verification of the `tiny-vec` container (`TinyVec<T, STACK_CAPACITY>`)

Shallow embedding of `src/lib.rs`.  The Rust container stores up to
`STACK_CAPACITY` elements inline in an array of `Option<T>` slots and
spills to a heap `Vec<T>` once the capacity is exceeded.

Modelling conventions:
* `[Option<T>; STACK_CAPACITY]` becomes a `List (Option T)`; that the list
  has length exactly `STACK_CAPACITY` is part of the representation
  invariant (in Rust it is enforced by the array type).
* `Vec<T>` becomes a `List T`.
* Operations that can panic (`unwrap`, `unreachable!`, out-of-bounds
  indexing `stack[i]`) return `Option`; `none` models a panic.
* References (`&T`, `&mut T`) are modelled by the value read
  (`TinyVec.get`, `TinyVec.getMut`) together with an explicit write
  operation (`TinyVec.writeAt`) for mutation through a `get_mut` reference.
-/

set_option autoImplicit false

universe u

/-- Embeds `enum TinyVecInner<T, STACK_CAPACITY> { Stack([Option<T>; STACK_CAPACITY]), Heap(Vec<T>) }`. -/
inductive TinyVecInner (T : Type u) where
  | Stack : List (Option T) → TinyVecInner T
  | Heap : List T → TinyVecInner T
  deriving DecidableEq

/-- Embeds `struct TinyVec<T, const STACK_CAPACITY: usize> { inner, length }`.
`N` is the `STACK_CAPACITY` const parameter (phantom here; the slot-array
length is tracked by the representation invariant). -/
structure TinyVec (T : Type u) (N : Nat) where
  inner : TinyVecInner T
  length : Nat
  deriving DecidableEq

variable {T : Type u} {N A B : Nat}

/-- `matches!(self.inner, TinyVecInner::Heap(..))`. -/
def TinyVecInner.isHeap : TinyVecInner T → Bool
  | .Stack _ => false
  | .Heap _ => true

/-- Embeds `TinyVec::new`: inline storage of `N` empty slots, length 0. -/
def TinyVec.new : TinyVec T N :=
  { inner := TinyVecInner.Stack (List.replicate N none), length := 0 }

/-- Embeds the per-slot `elm.unwrap()` mapped over `array.into_iter()` in
`spill`: succeeds with the list of contents iff every slot is occupied;
`none` models the `unwrap` panic on an empty slot. -/
def unwrapAll : List (Option T) → Option (List T)
  | [] => some []
  | none :: _ => none
  | some x :: rest => (unwrapAll rest).map (fun l => x :: l)

/-- Embeds `TinyVec::spill`.  Early-returns when the length is below
`STACK_CAPACITY` or the storage is already `Heap`; otherwise moves all
slots into a heap buffer.  The outer `none` models a panic: either the
first `unreachable!` arm (the `let TinyVecInner::Stack(array) = ...` else
branch) or a per-slot `unwrap` failure.  The second `unreachable!` (the
re-match on the freshly written `Heap` value) has no counterpart here
because the embedding builds the heap value directly. -/
def TinyVec.spill (v : TinyVec T N) : Option (TinyVec T N) :=
  if v.length < N ∨ v.inner.isHeap = true then some v
  else
    match v.inner with
    | .Heap _ => none
    | .Stack array =>
        (unwrapAll array).map (fun elems => { inner := TinyVecInner.Heap elems, length := v.length })

/-- Embeds `TinyVec::push`: spill if needed, then write `Some(item)` into
slot `length` (Stack) or append to the buffer (Heap), then increment
`length`.  `none` models a panic in `spill` or an out-of-bounds
`stack[self.length]` write. -/
def TinyVec.push (v : TinyVec T N) (item : T) : Option (TinyVec T N) :=
  match v.spill with
  | none => none
  | some v1 =>
    match v1.inner with
    | .Stack stack =>
        if v1.length < stack.length then
          some { inner := TinyVecInner.Stack (stack.set v1.length (some item)), length := v1.length + 1 }
        else none
    | .Heap heap =>
        some { inner := TinyVecInner.Heap (heap ++ [item]), length := v1.length + 1 }

/-- Embeds `TinyVec::pop`: on a non-empty vector, decrement `length`, then
`stack[self.length].take()` (Stack) or `heap.pop()` (Heap).  The result
pairs the new container state with the returned `Option<T>`; the outer
`none` models an out-of-bounds `stack[self.length]` panic. -/
def TinyVec.pop (v : TinyVec T N) : Option (TinyVec T N × Option T) :=
  if v.length = 0 then some (v, none)
  else
    match v.inner with
    | .Stack stack =>
        if v.length - 1 < stack.length then
          some ({ inner := TinyVecInner.Stack (stack.set (v.length - 1) none), length := v.length - 1 },
                (stack.get? (v.length - 1)).join)
        else none
    | .Heap heap =>
        some ({ inner := TinyVecInner.Heap heap.dropLast, length := v.length - 1 }, heap.getLast?)

/-- Embeds `TinyVec::get`: `some none` is the `None` result for
`index >= self.length`; `some (some x)` is `Some(&x)`; the outer `none`
models an out-of-bounds `stack[index]` panic. -/
def TinyVec.get (v : TinyVec T N) (index : Nat) : Option (Option T) :=
  if v.length ≤ index then some none
  else
    match v.inner with
    | .Stack stack =>
        if index < stack.length then some (stack.get? index).join else none
    | .Heap heap => some (heap.get? index)

/-- Embeds `TinyVec::get_mut` viewed as a read: it inspects exactly the
same slot as `get`, via `as_mut` instead of `as_ref`. -/
def TinyVec.getMut (v : TinyVec T N) (index : Nat) : Option (Option T) :=
  if v.length ≤ index then some none
  else
    match v.inner with
    | .Stack stack =>
        if index < stack.length then some (stack.get? index).join else none
    | .Heap heap => some (heap.get? index)

/-- The state change of writing `x` through the reference returned by
`get_mut(index)`: when `get_mut` returns `None` (out of bounds, or an
empty slot) nothing is written; the outer `none` models the
out-of-bounds `stack[index]` panic inside `get_mut`. -/
def TinyVec.writeAt (v : TinyVec T N) (index : Nat) (x : T) : Option (TinyVec T N) :=
  if v.length ≤ index then some v
  else
    match v.inner with
    | .Stack stack =>
        if index < stack.length then
          if (stack.get? index).join.isSome then
            some { inner := TinyVecInner.Stack (stack.set index (some x)), length := v.length }
          else some v
        else none
    | .Heap heap =>
        if index < heap.length then
          some { inner := TinyVecInner.Heap (heap.set index x), length := v.length }
        else some v

/-- Embeds `TinyVec::has_spilled`. -/
def TinyVec.has_spilled (v : TinyVec T N) : Bool :=
  v.inner.isHeap

/-- Embeds `TinyVec::is_empty`. -/
def TinyVec.is_empty (v : TinyVec T N) : Bool :=
  v.length = 0

/-- Embeds `TinyVec::len`. -/
def TinyVec.len (v : TinyVec T N) : Nat :=
  v.length

/-- Embeds `struct TinyVecIter<'a, T, STACK_CAPACITY> { vec, idx }`. -/
structure TinyVecIter (T : Type u) (N : Nat) where
  vec : TinyVec T N
  idx : Nat

/-- Embeds `TinyVec::iter`. -/
def TinyVec.iter (v : TinyVec T N) : TinyVecIter T N :=
  { vec := v, idx := 0 }

/-- Embeds `<TinyVecIter as Iterator>::next`, faithfully including its
bounds check: it reads `idx`, increments the cursor, and in the `Stack`
arm compares the *incremented* cursor `self.idx` against `self.vec.length`
(the source line `if self.idx >= self.vec.length`).  `none` models the
out-of-bounds `stack[idx]` panic. -/
def TinyVecIter.next (it : TinyVecIter T N) : Option (TinyVecIter T N × Option T) :=
  match it.vec.inner with
  | TinyVecInner.Stack stack =>
      if it.vec.length ≤ it.idx + 1 then some ({ vec := it.vec, idx := it.idx + 1 }, none)
      else if it.idx < stack.length then
        some ({ vec := it.vec, idx := it.idx + 1 }, (stack.get? it.idx).join)
      else none
  | TinyVecInner.Heap heap =>
      some ({ vec := it.vec, idx := it.idx + 1 }, heap.get? it.idx)

/-- Collecting loop for the borrowing iterator: repeatedly call `next`
until it yields `None`, accumulating the yielded elements.  `fuel` bounds
the number of calls (the Rust `collect` loop terminates because `next`
eventually returns `None`); a panic cuts the collection short. -/
def collectIterAux (it : TinyVecIter T N) : Nat → List T
  | 0 => []
  | Nat.succ fuel =>
    match it.next with
    | some (it2, some x) => x :: collectIterAux it2 fuel
    | some (_, none) => []
    | none => []

/-- `v.iter().collect()`: the fuel `v.length + 1` is enough, since `next`
yields at most `v.length` elements before returning `None`. -/
def collectIter (v : TinyVec T N) : List T :=
  collectIterAux v.iter (v.length + 1)

/-- Embeds `enum TinyVecIntoIterInner<T, STACK_CAPACITY>`: the consuming
iterator owns either the slot array or the heap buffer's own consuming
iterator (`vec::IntoIter`, modelled as the list of remaining elements). -/
inductive TinyVecIntoIterInner (T : Type u) where
  | Stack : List (Option T) → TinyVecIntoIterInner T
  | Heap : List T → TinyVecIntoIterInner T

/-- Embeds `struct TinyVecIntoIter<T, STACK_CAPACITY> { inner, idx }`. -/
structure TinyVecIntoIter (T : Type u) (N : Nat) where
  inner : TinyVecIntoIterInner T
  idx : Nat

/-- Embeds `<TinyVec as IntoIterator>::into_iter`. -/
def TinyVec.into_iter (v : TinyVec T N) : TinyVecIntoIter T N :=
  { inner :=
      match v.inner with
      | TinyVecInner.Stack stack => TinyVecIntoIterInner.Stack stack
      | TinyVecInner.Heap heap => TinyVecIntoIterInner.Heap heap,
    idx := 0 }

/-- Embeds `<TinyVecIntoIter as Iterator>::next`: reads `idx`, increments
the cursor, then either `stack[idx].take()` guarded by
`idx >= stack.len()`, or the heap iterator's own `next`. -/
def TinyVecIntoIter.next (it : TinyVecIntoIter T N) : TinyVecIntoIter T N × Option T :=
  match it.inner with
  | TinyVecIntoIterInner.Stack stack =>
      if stack.length ≤ it.idx then ({ inner := it.inner, idx := it.idx + 1 }, none)
      else ({ inner := TinyVecIntoIterInner.Stack (stack.set it.idx none), idx := it.idx + 1 },
            (stack.get? it.idx).join)
  | TinyVecIntoIterInner.Heap l =>
      match l with
      | [] => ({ inner := TinyVecIntoIterInner.Heap [], idx := it.idx + 1 }, none)
      | x :: rest => ({ inner := TinyVecIntoIterInner.Heap rest, idx := it.idx + 1 }, some x)

/-- Collecting loop for the consuming iterator. -/
def collectIntoIterAux (it : TinyVecIntoIter T N) : Nat → List T
  | 0 => []
  | Nat.succ fuel =>
    match it.next with
    | (it2, some x) => x :: collectIntoIterAux it2 fuel
    | (_, none) => []

/-- `v.into_iter().collect()`: fuel `N + v.length + 1` covers both the
stack-array walk (at most `N` slots) and the heap walk (`v.length`
elements). -/
def collectIntoIter (v : TinyVec T N) : List T :=
  collectIntoIterAux v.into_iter (N + v.length + 1)

/-- Embeds `PartialEq::eq` between a `TinyVec<T, B>` and a `TinyVec<T, A>`:
lengths first, then the zipped borrowing iterators compared pairwise.
Zipping two iterators yields exactly the pairs of their collected output
lists, so the loop is the `all` over the zip of the collections. -/
def tvEq [DecidableEq T] (a : TinyVec T B) (b : TinyVec T A) : Bool :=
  if a.length ≠ b.length then false
  else ((collectIter a).zip (collectIter b)).all (fun p => p.1 = p.2)

/-- Embeds `Hash::hash` as the trace of values fed to the hasher:
`self.iter().enumerate()` hashes each `(index, element)` pair in order,
so the hash input is determined by this list of pairs. -/
def hashTrace (v : TinyVec T N) : List (Nat × T) :=
  (collectIter v).enum

/-- Embeds `TinyVec::extend`: the `for` loop pushes each produced element
in encounter order, propagating a panic. -/
def TinyVec.extend (v : TinyVec T N) : List T → Option (TinyVec T N)
  | [] => some v
  | x :: rest =>
    match v.push x with
    | none => none
    | some v2 => v2.extend rest

/-- Embeds `<TinyVec as From<I>>::from`: `new` then `extend`. -/
def TinyVec.fromList (l : List T) : Option (TinyVec T N) :=
  TinyVec.new.extend l

/-- The logical contents of a `TinyVec`: the occupied prefix of the slot
array (Stack) or the heap buffer (Heap).  Used to state specifications. -/
def TinyVec.toList (v : TinyVec T N) : List T :=
  match v.inner with
  | TinyVecInner.Stack stack => (stack.take v.length).filterMap id
  | TinyVecInner.Heap heap => heap

/-- The representation invariant: while Inline, the slot array has exactly
`N` slots, `length ≤ N`, slots `0..length` hold `some` of the logical
elements in order and slots `length..N` are `none`; while Heap, the
buffer length equals `length`. -/
def TinyVec.Invariant (v : TinyVec T N) : Prop :=
  match v.inner with
  | TinyVecInner.Stack stack =>
      v.length ≤ N ∧ stack.length = N ∧
      ∃ elems : List T, elems.length = v.length ∧
        stack = elems.map some ++ List.replicate (N - v.length) none
  | TinyVecInner.Heap heap => heap.length = v.length

/-- Reachable states: everything obtainable from `new` by `push`, `pop`,
writes through `get_mut`, and `extend` (panic-free runs). -/
inductive TinyVec.Reachable : TinyVec T N → Prop where
  | new : TinyVec.Reachable (TinyVec.new : TinyVec T N)
  | push {v v2 : TinyVec T N} {x : T} :
      TinyVec.Reachable v → v.push x = some v2 → TinyVec.Reachable v2
  | pop {v v2 : TinyVec T N} {r : Option T} :
      TinyVec.Reachable v → v.pop = some (v2, r) → TinyVec.Reachable v2
  | write {v v2 : TinyVec T N} {i : Nat} {x : T} :
      TinyVec.Reachable v → v.writeAt i x = some v2 → TinyVec.Reachable v2
  | extend {v v2 : TinyVec T N} {l : List T} :
      TinyVec.Reachable v → v.extend l = some v2 → TinyVec.Reachable v2

/-- Modelled from the spec: "appending each [produced element] via `push` in
encounter order; semantically identical to repeated `push` calls".  This is
the spec-side definition of `extend`, to be compared with `TinyVec.extend`
translated from the source. -/
def specRepeatedPush (v : TinyVec T N) : List T → Option (TinyVec T N)
  | [] => some v
  | x :: rest => (v.push x).bind (fun v1 => specRepeatedPush v1 rest)

/-! ## Helper lemmas -/

theorem unwrapAll_map_some (l : List T) : unwrapAll (l.map some) = some l := by
  induction l with
  | nil => rfl
  | cons x rest ih => simp [List.map_cons, unwrapAll, ih]

theorem filterMap_id_map_some (l : List T) : (l.map some).filterMap id = l := by
  induction l with
  | nil => rfl
  | cons x rest ih => simp [ih]

theorem invariant_mk_stack (stack : List (Option T)) (len : Nat) :
    (⟨TinyVecInner.Stack stack, len⟩ : TinyVec T N).Invariant ↔
      (len ≤ N ∧ stack.length = N ∧ ∃ elems : List T, elems.length = len ∧
        stack = elems.map some ++ List.replicate (N - len) none) :=
  Iff.rfl

theorem invariant_mk_heap (heap : List T) (len : Nat) :
    (⟨TinyVecInner.Heap heap, len⟩ : TinyVec T N).Invariant ↔ heap.length = len :=
  Iff.rfl

theorem toList_mk_heap (heap : List T) (len : Nat) :
    (⟨TinyVecInner.Heap heap, len⟩ : TinyVec T N).toList = heap :=
  rfl

theorem toList_stack_eq (len : Nat) (elems : List T) (h : elems.length = len) :
    (⟨TinyVecInner.Stack (elems.map some ++ List.replicate (N - len) none), len⟩ :
        TinyVec T N).toList = elems := by
  show ((elems.map some ++ List.replicate (N - len) none).take len).filterMap id = elems
  rw [show len = (elems.map some).length by simp [h], List.take_left, filterMap_id_map_some]

theorem toList_new : (TinyVec.new : TinyVec T N).toList = [] := by
  simp [TinyVec.new, TinyVec.toList]

theorem invariant_new : (TinyVec.new : TinyVec T N).Invariant := by
  rw [show (TinyVec.new : TinyVec T N) =
      (⟨TinyVecInner.Stack (List.replicate N none), 0⟩ : TinyVec T N) from rfl,
    invariant_mk_stack]
  exact ⟨Nat.zero_le _, by simp, [], rfl, by simp⟩

theorem toList_length {v : TinyVec T N} (h : v.Invariant) : v.toList.length = v.length := by
  obtain ⟨inner, len⟩ := v
  cases inner with
  | Stack stack =>
      rw [invariant_mk_stack] at h
      obtain ⟨hle, hslen, elems, helen, hstack⟩ := h
      subst hstack
      rw [toList_stack_eq len elems helen]
      exact helen
  | Heap heap =>
      rw [invariant_mk_heap] at h
      rw [toList_mk_heap]
      exact h

theorem spill_spec {v : TinyVec T N} (h : v.Invariant) :
    ∃ v2 : TinyVec T N, v.spill = some v2 ∧ v2.Invariant ∧ v2.length = v.length ∧
      v2.toList = v.toList ∧
      (v2.inner.isHeap = true ↔ (v.inner.isHeap = true ∨ N ≤ v.length)) ∧
      (v2.inner.isHeap = false → v2 = v) := by
  obtain ⟨inner, len⟩ := v
  cases inner with
  | Heap heap =>
      refine ⟨⟨TinyVecInner.Heap heap, len⟩, ?_, h, rfl, rfl,
        by simp [TinyVecInner.isHeap], fun _ => rfl⟩
      simp [TinyVec.spill, TinyVecInner.isHeap]
  | Stack stack =>
      rw [invariant_mk_stack] at h
      obtain ⟨hle, hslen, elems, helen, hstack⟩ := h
      by_cases hlt : len < N
      · refine ⟨⟨TinyVecInner.Stack stack, len⟩, ?_,
          (invariant_mk_stack stack len).mpr ⟨hle, hslen, elems, helen, hstack⟩, rfl, rfl,
          ?_, fun _ => rfl⟩
        · simp [TinyVec.spill, hlt]
        · simp only [TinyVecInner.isHeap]
          simp
          omega
      · have hlen : len = N := Nat.le_antisymm hle (Nat.le_of_not_lt hlt)
        have hstack2 : stack = elems.map some := by
          rw [hstack, show N - len = 0 by omega]
          simp
        refine ⟨⟨TinyVecInner.Heap elems, len⟩, ?_, ?_, rfl, ?_, ?_, ?_⟩
        · have hcond : ¬(len < N ∨ (TinyVecInner.Stack stack).isHeap = true) := by
            simp [TinyVecInner.isHeap]
            omega
          simp only [TinyVec.spill]
          rw [if_neg hcond]
          simp [hstack2, unwrapAll_map_some]
        · exact (invariant_mk_heap elems len).mpr helen
        · rw [toList_mk_heap, hstack, toList_stack_eq len elems helen]
        · simp only [TinyVecInner.isHeap]
          simp
          omega
        · simp [TinyVecInner.isHeap]

theorem push_spec {v : TinyVec T N} (h : v.Invariant) (x : T) :
    ∃ v2 : TinyVec T N, v.push x = some v2 ∧ v2.Invariant ∧ v2.length = v.length + 1 ∧
      v2.toList = v.toList ++ [x] ∧
      (v2.has_spilled = true ↔ (v.has_spilled = true ∨ N ≤ v.length)) := by
  obtain ⟨v1, hspill, hinv1, hlen1, hlist1, hheap1, hstk1⟩ := spill_spec h
  obtain ⟨inner1, len1⟩ := v1
  cases inner1 with
  | Stack stack1 =>
      rw [invariant_mk_stack] at hinv1
      obtain ⟨hle, hslen, elems, helen, hstack⟩ := hinv1
      have hveq : v = ⟨TinyVecInner.Stack stack1, len1⟩ := (hstk1 rfl).symm
      subst hveq
      have hnospill : ¬ N ≤ len1 := by
        intro hcontra
        have := hheap1.mpr (Or.inr hcontra)
        simp [TinyVecInner.isHeap] at this
      have hltstack : len1 < stack1.length := by omega
      have hset : stack1.set len1 (some x) =
          (elems ++ [x]).map some ++ List.replicate (N - (len1 + 1)) none := by
        subst hstack
        have hrep : N - len1 = (N - (len1 + 1)) + 1 := by omega
        rw [List.set_append, if_neg (by simp [helen])]
        simp only [List.length_map, helen, Nat.sub_self, hrep, List.replicate_succ]
        simp [List.set_cons_zero]
      have helen2 : (elems ++ [x]).length = len1 + 1 := by simp [helen]
      refine ⟨⟨TinyVecInner.Stack (stack1.set len1 (some x)), len1 + 1⟩, ?_, ?_, rfl, ?_, ?_⟩
      · simp only [TinyVec.push, hspill]
        rw [if_pos hltstack]
      · rw [invariant_mk_stack]
        exact ⟨by omega, by simp [hslen], elems ++ [x], helen2, hset⟩
      · rw [show (⟨TinyVecInner.Stack (stack1.set len1 (some x)), len1 + 1⟩ : TinyVec T N) =
            ⟨TinyVecInner.Stack ((elems ++ [x]).map some ++
              List.replicate (N - (len1 + 1)) none), len1 + 1⟩ by rw [hset]]
        rw [toList_stack_eq (len1 + 1) (elems ++ [x]) helen2]
        rw [show (⟨TinyVecInner.Stack stack1, len1⟩ : TinyVec T N) =
            ⟨TinyVecInner.Stack (elems.map some ++
              List.replicate (N - len1) none), len1⟩ by rw [hstack]]
        rw [toList_stack_eq len1 elems helen]
      · simp only [TinyVec.has_spilled, TinyVecInner.isHeap]
        simp
        omega
  | Heap heap1 =>
      rw [invariant_mk_heap] at hinv1
      refine ⟨⟨TinyVecInner.Heap (heap1 ++ [x]), len1 + 1⟩, ?_, ?_, ?_, ?_, ?_⟩
      · simp only [TinyVec.push, hspill]
      · rw [invariant_mk_heap]
        simp [hinv1]
      · rw [← hlen1]
      · rw [← hlist1, toList_mk_heap, toList_mk_heap]
      · simp only [TinyVec.has_spilled, TinyVecInner.isHeap]
        constructor
        · intro _
          exact hheap1.mp rfl
        · intro _
          trivial

theorem map_some_append_replicate_set_last (e : List T) (a : T) (k : Nat) :
    ((e ++ [a]).map some ++ List.replicate k none).set e.length none =
      e.map some ++ List.replicate (k + 1) none := by
  rw [List.map_append, List.append_assoc, List.set_append]
  rw [if_neg (by simp)]
  simp [List.replicate_succ]

theorem map_some_append_replicate_get_last (e : List T) (a : T) (k : Nat) :
    ((e ++ [a]).map some ++ List.replicate k none).get? e.length = some (some a) := by
  rw [List.get?_eq_getElem?, List.getElem?_append, if_pos (by simp)]
  simp

theorem pop_spec {v : TinyVec T N} (h : v.Invariant) :
    ∃ (v2 : TinyVec T N) (r : Option T), v.pop = some (v2, r) ∧ v2.Invariant ∧
      v2.has_spilled = v.has_spilled ∧
      (v.length = 0 → v2 = v ∧ r = none) ∧
      (v.length ≠ 0 → v2.length = v.length - 1 ∧ v2.toList = v.toList.dropLast ∧
        r = v.toList.getLast?) := by
  obtain ⟨inner, len⟩ := v
  cases inner with
  | Stack stack =>
      rw [invariant_mk_stack] at h
      obtain ⟨hle, hslen, elems, helen, hstack⟩ := h
      by_cases h0 : len = 0
      · subst h0
        exact ⟨⟨TinyVecInner.Stack stack, 0⟩, none, by simp [TinyVec.pop],
          (invariant_mk_stack stack 0).mpr ⟨hle, hslen, elems, helen, hstack⟩, rfl,
          fun _ => ⟨rfl, rfl⟩, fun hne => absurd rfl hne⟩
      · have hne : elems ≠ [] := by
          intro he
          rw [he] at helen
          simp at helen
          omega
        have hdecomp : elems.dropLast ++ [elems.getLast hne] = elems :=
          List.dropLast_append_getLast hne
        have hlen' : elems.dropLast.length = len - 1 := by
          rw [List.length_dropLast, helen]
        have hstack' : stack =
            (elems.dropLast ++ [elems.getLast hne]).map some ++ List.replicate (N - len) none := by
          rw [hdecomp, ← hstack]
        have hget : stack.get? (len - 1) = some (some (elems.getLast hne)) := by
          rw [hstack', show len - 1 = elems.dropLast.length by omega,
            map_some_append_replicate_get_last]
        have hset : stack.set (len - 1) none =
            elems.dropLast.map some ++ List.replicate (N - (len - 1)) none := by
          rw [hstack', show len - 1 = elems.dropLast.length by omega,
            map_some_append_replicate_set_last,
            show (N - len) + 1 = N - (len - 1) by omega, hlen']
        have htoList :
            (⟨TinyVecInner.Stack stack, len⟩ : TinyVec T N).toList = elems := by
          rw [show (⟨TinyVecInner.Stack stack, len⟩ : TinyVec T N) =
              ⟨TinyVecInner.Stack (elems.map some ++
                List.replicate (N - len) none), len⟩ by rw [hstack]]
          exact toList_stack_eq len elems helen
        refine ⟨⟨TinyVecInner.Stack (stack.set (len - 1) none), len - 1⟩,
          (stack.get? (len - 1)).join, ?_, ?_, rfl, fun hzero => absurd hzero h0,
          fun _ => ⟨rfl, ?_, ?_⟩⟩
        · simp only [TinyVec.pop]
          rw [if_neg h0, if_pos (by rw [hslen]; omega)]
        · rw [invariant_mk_stack]
          exact ⟨by omega, by simp [hslen], elems.dropLast, hlen', hset⟩
        · rw [show (⟨TinyVecInner.Stack (stack.set (len - 1) none), len - 1⟩ : TinyVec T N) =
              ⟨TinyVecInner.Stack (elems.dropLast.map some ++
                List.replicate (N - (len - 1)) none), len - 1⟩ by rw [hset]]
          rw [toList_stack_eq (len - 1) elems.dropLast hlen', htoList]
        · rw [hget, htoList, List.getLast?_eq_getLast_of_ne_nil hne]
          rfl
  | Heap heap =>
      rw [invariant_mk_heap] at h
      by_cases h0 : len = 0
      · subst h0
        exact ⟨⟨TinyVecInner.Heap heap, 0⟩, none, by simp [TinyVec.pop],
          (invariant_mk_heap heap 0).mpr h, rfl, fun _ => ⟨rfl, rfl⟩, fun hne => absurd rfl hne⟩
      · refine ⟨⟨TinyVecInner.Heap heap.dropLast, len - 1⟩, heap.getLast?, ?_, ?_, rfl,
          fun hzero => absurd hzero h0, fun _ => ⟨rfl, rfl, rfl⟩⟩
        · simp only [TinyVec.pop]
          rw [if_neg h0]
        · rw [invariant_mk_heap, List.length_dropLast, h]

theorem join_map_some (o : Option T) : (o.map some).join = o := by
  cases o <;> rfl

theorem toList_eq_of_stack (stack : List (Option T)) (len : Nat) (elems : List T)
    (helen : elems.length = len)
    (hstack : stack = elems.map some ++ List.replicate (N - len) none) :
    (⟨TinyVecInner.Stack stack, len⟩ : TinyVec T N).toList = elems := by
  subst hstack
  exact toList_stack_eq len elems helen

theorem stack_get_join {stack : List (Option T)} {len : Nat} {elems : List T}
    (helen : elems.length = len)
    (hstack : stack = elems.map some ++ List.replicate (N - len) none)
    (i : Nat) (hi : i < len) :
    (stack.get? i).join = elems.get? i := by
  rw [hstack, List.get?_eq_getElem?, List.getElem?_append,
    if_pos (by simp only [List.length_map]; omega), List.getElem?_map,
    join_map_some, List.get?_eq_getElem?]

theorem get_spec {v : TinyVec T N} (h : v.Invariant) (i : Nat) :
    v.get i = some (v.toList.get? i) := by
  obtain ⟨inner, len⟩ := v
  cases inner with
  | Stack stack =>
      rw [invariant_mk_stack] at h
      obtain ⟨hle, hslen, elems, helen, hstack⟩ := h
      rw [toList_eq_of_stack stack len elems helen hstack]
      by_cases hi : len ≤ i
      · simp only [TinyVec.get]
        rw [if_pos hi, List.get?_eq_getElem?, List.getElem?_eq_none (by omega)]
      · simp only [TinyVec.get]
        rw [if_neg hi, if_pos (by omega), stack_get_join helen hstack i (by omega)]
  | Heap heap =>
      rw [invariant_mk_heap] at h
      rw [toList_mk_heap]
      by_cases hi : len ≤ i
      · simp only [TinyVec.get]
        rw [if_pos hi, List.get?_eq_getElem?, List.getElem?_eq_none (by omega)]
      · simp only [TinyVec.get]
        rw [if_neg hi]

theorem getMut_eq_get (v : TinyVec T N) (i : Nat) : v.getMut i = v.get i :=
  rfl

theorem writeAt_spec {v : TinyVec T N} (h : v.Invariant) (i : Nat) (x : T) :
    ∃ v2 : TinyVec T N, v.writeAt i x = some v2 ∧ v2.Invariant ∧
      v2.length = v.length ∧ v2.has_spilled = v.has_spilled ∧
      v2.toList = if i < v.length then v.toList.set i x else v.toList := by
  obtain ⟨inner, len⟩ := v
  by_cases hi : len ≤ i
  · refine ⟨⟨inner, len⟩, ?_, h, rfl, rfl, ?_⟩
    · cases inner <;> simp [TinyVec.writeAt, hi]
    · rw [if_neg (show ¬ i < len by omega)]
  cases inner with
  | Stack stack =>
      rw [invariant_mk_stack] at h
      obtain ⟨hle, hslen, elems, helen, hstack⟩ := h
      have hjoin : (stack.get? i).join = elems.get? i :=
        stack_get_join helen hstack i (by omega)
      have hsome : (stack.get? i).join.isSome = true := by
        rw [hjoin, List.get?_eq_getElem?, List.getElem?_eq_getElem (by omega)]
        rfl
      have hsetlen : (elems.set i x).length = len := by
        rw [List.length_set, helen]
      have hset : stack.set i (some x) =
          (elems.set i x).map some ++ List.replicate (N - len) none := by
        rw [hstack, List.set_append, if_pos (by simp only [List.length_map]; omega),
          ← List.map_set]
      refine ⟨⟨TinyVecInner.Stack (stack.set i (some x)), len⟩, ?_, ?_, rfl, rfl, ?_⟩
      · simp only [TinyVec.writeAt]
        rw [if_neg hi, if_pos (by omega), if_pos hsome]
      · rw [invariant_mk_stack]
        exact ⟨hle, by simp [hslen], elems.set i x, hsetlen, hset⟩
      · rw [if_pos (show i < len by omega),
          toList_eq_of_stack _ len (elems.set i x) hsetlen hset,
          toList_eq_of_stack stack len elems helen hstack]
  | Heap heap =>
      rw [invariant_mk_heap] at h
      refine ⟨⟨TinyVecInner.Heap (heap.set i x), len⟩, ?_, ?_, rfl, rfl, ?_⟩
      · simp only [TinyVec.writeAt]
        rw [if_neg hi, if_pos (by omega)]
      · rw [invariant_mk_heap, List.length_set, h]
      · rw [if_pos (show i < len by omega), toList_mk_heap, toList_mk_heap]

theorem extend_spec {v : TinyVec T N} (h : v.Invariant) (l : List T) :
    ∃ v2 : TinyVec T N, v.extend l = some v2 ∧ v2.Invariant ∧
      v2.length = v.length + l.length ∧ v2.toList = v.toList ++ l ∧
      (v2.has_spilled = true ↔
        (v.has_spilled = true ∨ (l ≠ [] ∧ N < v.length + l.length))) := by
  induction l generalizing v with
  | nil => exact ⟨v, rfl, h, by simp, by simp, by simp⟩
  | cons x rest ih =>
      obtain ⟨v1, hpush, hinv1, hlen1, hlist1, hsp1⟩ := push_spec h x
      obtain ⟨v2, hext, hinv2, hlen2, hlist2, hsp2⟩ := ih hinv1
      refine ⟨v2, ?_, hinv2, ?_, ?_, ?_⟩
      · simp only [TinyVec.extend, hpush]
        exact hext
      · rw [hlen2, hlen1]
        simp only [List.length_cons]
        omega
      · rw [hlist2, hlist1]
        simp
      · rw [hsp2]
        constructor
        · rintro (h1 | ⟨hr, hlt⟩)
          · rcases hsp1.mp h1 with h2 | h2
            · exact Or.inl h2
            · exact Or.inr ⟨by simp, by simp only [List.length_cons]; omega⟩
          · exact Or.inr ⟨by simp, by simp only [List.length_cons]; omega⟩
        · rintro (h1 | ⟨hne, hlt⟩)
          · exact Or.inl (hsp1.mpr (Or.inl h1))
          · by_cases hN : N ≤ v.length
            · exact Or.inl (hsp1.mpr (Or.inr hN))
            · refine Or.inr ⟨?_, ?_⟩
              · intro hre
                subst hre
                simp only [List.length_cons, List.length_nil] at hlt
                omega
              · simp only [List.length_cons] at hlt
                omega

theorem reach_inv {v : TinyVec T N} (h : v.Reachable) : v.Invariant := by
  induction h with
  | new => exact invariant_new
  | push hr heq ih =>
      obtain ⟨v2', heq', hinv', _, _, _⟩ := push_spec ih _
      obtain rfl : v2' = _ := by
        injection heq'.symm.trans heq
      exact hinv'
  | pop hr heq ih =>
      obtain ⟨v2', r', heq', hinv', _, _, _⟩ := pop_spec ih
      have h12 := heq'.symm.trans heq
      simp only [Option.some.injEq, Prod.mk.injEq] at h12
      rw [← h12.1]
      exact hinv'
  | write hr heq ih =>
      obtain ⟨v2', heq', hinv', _, _, _⟩ := writeAt_spec ih _ _
      obtain rfl : v2' = _ := by
        injection heq'.symm.trans heq
      exact hinv'
  | extend hr heq ih =>
      obtain ⟨v2', heq', hinv', _, _, _⟩ := extend_spec ih _
      obtain rfl : v2' = _ := by
        injection heq'.symm.trans heq
      exact hinv'

theorem has_spilled_new : (TinyVec.new : TinyVec T N).has_spilled = false :=
  rfl

theorem extendNew_spec (l : List T) :
    ∃ w : TinyVec T N, (TinyVec.new : TinyVec T N).extend l = some w ∧ w.Invariant ∧
      w.length = l.length ∧ w.toList = l ∧ (w.has_spilled = true ↔ N < l.length) := by
  obtain ⟨w, hw, hwi, hwlen, hwlist, hwsp⟩ :=
    extend_spec (invariant_new : (TinyVec.new : TinyVec T N).Invariant) l
  have h0 : (TinyVec.new : TinyVec T N).length = 0 := rfl
  refine ⟨w, hw, hwi, by rw [hwlen, h0, Nat.zero_add], by rw [hwlist, toList_new, List.nil_append], ?_⟩
  rw [hwsp]
  constructor
  · rintro (hsp | ⟨_, hlt⟩)
    · rw [has_spilled_new] at hsp
      cases hsp
    · omega
  · intro hlt
    refine Or.inr ⟨?_, by omega⟩
    intro hl
    subst hl
    simp only [List.length_nil] at hlt
    omega

/-! ## Claims -/

/-- C1 (code bug): collecting the borrowing iterator on an Inline instance
does not yield `len()` elements — the bounds check in `TinyVecIter::next`
compares the already-incremented cursor against `length`, dropping the
last element.  At the failing input (capacity 4, one pushed element `5`)
the container has `len() = 1`, yet `iter()` collects to `[]` while
`into_iter()` on the equivalent instance collects to `[5]`. -/
theorem c1_inline_iter_drops_last_element :
    ((TinyVec.new : TinyVec Int 4).push 5).map
      (fun w => (w.len, collectIter w, collectIntoIter w)) = some (1, [], [5]) := by
  rfl

/-- C2 (code bug): `==` is *not* elementwise equality at every index —
because the borrowing iterator drops the last element of Inline instances,
`eq` never compares the elements at index `length - 1` of two Inline
vectors.  At the failing input, the capacity-4 instances `[1, 2]` and
`[1, 3]` compare equal although their elements at index 1 are `2` and `3`. -/
theorem c2_eq_true_despite_differing_last_element :
    ((TinyVec.new : TinyVec Int 4).extend [1, 2]).bind
      (fun a => ((TinyVec.new : TinyVec Int 4).extend [1, 3]).map
        (fun b => (tvEq a b, a.get 1, b.get 1))) =
      some (true, some (some 2), some (some 3)) := by
  rfl

/-- C3 (code bug): the hash input is *not* the pairs `(i, element)` for
every `i` in `[0, len())` — on Inline instances the borrowing iterator
drops the last element, so the final pair is never fed.  At the failing
input, the Inline capacity-4 instance `[1, 2]` (hash trace `[(0, 1)]`,
although `len() = 2`) and the spilled capacity-1 instance `[1, 2]` (hash
trace `[(0, 1), (1, 2)]`) compare equal yet feed different hasher input. -/
theorem c3_hash_trace_differs_for_equal_instances :
    ((TinyVec.new : TinyVec Int 4).extend [1, 2]).bind
      (fun a => ((TinyVec.new : TinyVec Int 1).extend [1, 2]).map
        (fun b => (tvEq a b, a.len, hashTrace a, hashTrace b))) =
      some (true, 2, [(0, 1)], [(0, 1), (1, 2)]) := by
  rfl

/-- C7: `extend` is semantically identical to one `push` per produced
element in encounter order (`specRepeatedPush`, written from the spec's
words); construction from a producer is `new()` followed by `extend`; the
constructed instance's length equals the number of produced elements and
it has spilled exactly when that count exceeds `N`. -/
theorem c7_extend_is_repeated_push (v : TinyVec T N) (l : List T) :
    v.extend l = specRepeatedPush v l ∧
    (TinyVec.fromList l : Option (TinyVec T N)) = (TinyVec.new : TinyVec T N).extend l ∧
    (∃ w : TinyVec T N, TinyVec.fromList l = some w ∧ w.len = l.length ∧
      (w.has_spilled = true ↔ N < l.length)) := by
  refine ⟨?_, rfl, ?_⟩
  · induction l generalizing v with
    | nil => rfl
    | cons x rest ih =>
        simp only [TinyVec.extend, specRepeatedPush]
        cases v.push x with
        | none => rfl
        | some v1 => exact ih v1
  · obtain ⟨w, hw, _, hwlen, _, hwsp⟩ := extendNew_spec (N := N) l
    exact ⟨w, hw, hwlen, hwsp⟩

/-- C10: with inline capacity 0, `new()` succeeds, starts in Inline mode
with a zero-length slot array (`has_spilled() = false`, `len() = 0`), and
the Inline-to-Heap transition happens only at the first push. -/
theorem c10_zero_capacity_starts_inline (x : T) :
    (TinyVec.new : TinyVec T 0).has_spilled = false ∧
    (TinyVec.new : TinyVec T 0).inner = TinyVecInner.Stack [] ∧
    (TinyVec.new : TinyVec T 0).len = 0 ∧
    (TinyVec.new : TinyVec T 0).push x = some ⟨TinyVecInner.Heap [x], 1⟩ ∧
    (⟨TinyVecInner.Heap [x], 1⟩ : TinyVec T 0).has_spilled = true := by
  exact ⟨rfl, rfl, rfl, rfl, rfl⟩

/-- C4: starting from `new()`, after pushing `k` elements `has_spilled()`
is `true` exactly when `k > N` (false up to the N-th push, true from the
(N+1)-th push onward); and once `true` it stays `true` across `push`,
`pop`, writes through `get_mut`, and `extend`. -/
theorem c4_has_spilled_threshold_and_monotone (l : List T) (v v2 : TinyVec T N)
    (x : T) (i : Nat) (r : Option T) (hv : v.Reachable) :
    (∃ w : TinyVec T N, (TinyVec.new : TinyVec T N).extend l = some w ∧
      (w.has_spilled = true ↔ N < l.length)) ∧
    (v.has_spilled = true → v.push x = some v2 → v2.has_spilled = true) ∧
    (v.has_spilled = true → v.pop = some (v2, r) → v2.has_spilled = true) ∧
    (v.has_spilled = true → v.writeAt i x = some v2 → v2.has_spilled = true) ∧
    (v.has_spilled = true → v.extend l = some v2 → v2.has_spilled = true) := by
  have hinv := reach_inv hv
  refine ⟨?_, ?_, ?_, ?_, ?_⟩
  · obtain ⟨w, hw, _, _, _, hwsp⟩ := extendNew_spec (N := N) l
    exact ⟨w, hw, hwsp⟩
  · intro hsp hpush
    obtain ⟨v2', heq', _, _, _, hsp'⟩ := push_spec hinv x
    obtain rfl : v2' = v2 := by injection heq'.symm.trans hpush
    exact hsp'.mpr (Or.inl hsp)
  · intro hsp hpop
    obtain ⟨v2', r', heq', _, hsp', _, _⟩ := pop_spec hinv
    have h12 := heq'.symm.trans hpop
    simp only [Option.some.injEq, Prod.mk.injEq] at h12
    rw [← h12.1, hsp', hsp]
  · intro hsp hw
    obtain ⟨v2', heq', _, _, hsp', _⟩ := writeAt_spec hinv i x
    obtain rfl : v2' = v2 := by injection heq'.symm.trans hw
    rw [hsp', hsp]
  · intro hsp hext
    obtain ⟨v2', heq', _, _, _, hsp'⟩ := extend_spec hinv l
    obtain rfl : v2' = v2 := by injection heq'.symm.trans hext
    exact hsp'.mpr (Or.inl hsp)

/-- Witness for C4 at inline capacity 0: the vector `[7]` (already spilled,
reached by one push from `new`). -/
theorem c4_has_spilled_threshold_and_monotone_witness :
    (∃ w : TinyVec Int 0, (TinyVec.new : TinyVec Int 0).extend [7] = some w ∧
      (w.has_spilled = true ↔ 0 < [(7 : Int)].length)) ∧
    ((⟨TinyVecInner.Heap [7], 1⟩ : TinyVec Int 0).has_spilled = true →
      (⟨TinyVecInner.Heap [7], 1⟩ : TinyVec Int 0).push 7 = some ⟨TinyVecInner.Heap [7, 7], 2⟩ →
      (⟨TinyVecInner.Heap [7, 7], 2⟩ : TinyVec Int 0).has_spilled = true) ∧
    ((⟨TinyVecInner.Heap [7], 1⟩ : TinyVec Int 0).has_spilled = true →
      (⟨TinyVecInner.Heap [7], 1⟩ : TinyVec Int 0).pop = some (⟨TinyVecInner.Heap [7, 7], 2⟩, some 7) →
      (⟨TinyVecInner.Heap [7, 7], 2⟩ : TinyVec Int 0).has_spilled = true) ∧
    ((⟨TinyVecInner.Heap [7], 1⟩ : TinyVec Int 0).has_spilled = true →
      (⟨TinyVecInner.Heap [7], 1⟩ : TinyVec Int 0).writeAt 0 7 = some ⟨TinyVecInner.Heap [7, 7], 2⟩ →
      (⟨TinyVecInner.Heap [7, 7], 2⟩ : TinyVec Int 0).has_spilled = true) ∧
    ((⟨TinyVecInner.Heap [7], 1⟩ : TinyVec Int 0).has_spilled = true →
      (⟨TinyVecInner.Heap [7], 1⟩ : TinyVec Int 0).extend [7] = some ⟨TinyVecInner.Heap [7, 7], 2⟩ →
      (⟨TinyVecInner.Heap [7, 7], 2⟩ : TinyVec Int 0).has_spilled = true) :=
  c4_has_spilled_threshold_and_monotone [7] ⟨TinyVecInner.Heap [7], 1⟩
    ⟨TinyVecInner.Heap [7, 7], 2⟩ 7 0 (some 7)
    (@TinyVec.Reachable.push Int 0 TinyVec.new ⟨TinyVecInner.Heap [7], 1⟩ 7
      TinyVec.Reachable.new (by decide))

/-- C5: on every reachable instance `pop()` succeeds (no panic), returns
the empty indicator iff the length is 0 (and then leaves the instance
unchanged); otherwise it decrements the length by one and returns the
element at the new last logical index, and it never reverts the storage
mode. -/
theorem c5_pop_returns_last (v : TinyVec T N) (hv : v.Reachable) :
    ∃ (v2 : TinyVec T N) (r : Option T), v.pop = some (v2, r) ∧
      (r = none ↔ v.len = 0) ∧
      (v.len = 0 → v2 = v) ∧
      (v.len ≠ 0 → v2.len = v.len - 1 ∧ r = v.toList.getLast? ∧
        v2.toList = v.toList.dropLast) ∧
      v2.has_spilled = v.has_spilled := by
  have hinv := reach_inv hv
  obtain ⟨v2, r, heq, hinv2, hsp, h0, hne⟩ := pop_spec hinv
  refine ⟨v2, r, heq, ?_, fun hz => (h0 hz).1,
    fun hz => ⟨(hne hz).1, (hne hz).2.2, (hne hz).2.1⟩, hsp⟩
  constructor
  · intro hrnone
    by_contra hlen
    obtain ⟨-, -, hr⟩ := hne hlen
    have hlist : v.toList.length = v.length := toList_length hinv
    have hnil : v.toList ≠ [] := by
      intro hemp
      rw [hemp] at hlist
      simp only [List.length_nil] at hlist
      exact hlen hlist.symm
    rw [hr, List.getLast?_eq_getLast_of_ne_nil hnil] at hrnone
    cases hrnone
  · intro hz
    exact (h0 hz).2

/-- Witness for C5 at the spec's Scenario B state: capacity 4 after
pushing 12, -33, 1346, -9994, 99 (spilled, length 5). -/
theorem c5_pop_returns_last_witness :
    ∃ (v2 : TinyVec Int 4) (r : Option Int),
      (⟨TinyVecInner.Heap [12, -33, 1346, -9994, 99], 5⟩ : TinyVec Int 4).pop = some (v2, r) ∧
      (r = none ↔ (⟨TinyVecInner.Heap [12, -33, 1346, -9994, 99], 5⟩ : TinyVec Int 4).len = 0) ∧
      ((⟨TinyVecInner.Heap [12, -33, 1346, -9994, 99], 5⟩ : TinyVec Int 4).len = 0 →
        v2 = ⟨TinyVecInner.Heap [12, -33, 1346, -9994, 99], 5⟩) ∧
      ((⟨TinyVecInner.Heap [12, -33, 1346, -9994, 99], 5⟩ : TinyVec Int 4).len ≠ 0 →
        v2.len = (⟨TinyVecInner.Heap [12, -33, 1346, -9994, 99], 5⟩ : TinyVec Int 4).len - 1 ∧
        r = (⟨TinyVecInner.Heap [12, -33, 1346, -9994, 99], 5⟩ : TinyVec Int 4).toList.getLast? ∧
        v2.toList = (⟨TinyVecInner.Heap [12, -33, 1346, -9994, 99], 5⟩ : TinyVec Int 4).toList.dropLast) ∧
      v2.has_spilled = (⟨TinyVecInner.Heap [12, -33, 1346, -9994, 99], 5⟩ : TinyVec Int 4).has_spilled :=
  c5_pop_returns_last ⟨TinyVecInner.Heap [12, -33, 1346, -9994, 99], 5⟩
    (@TinyVec.Reachable.extend Int 4 TinyVec.new ⟨TinyVecInner.Heap [12, -33, 1346, -9994, 99], 5⟩
      [12, -33, 1346, -9994, 99] TinyVec.Reachable.new (by decide))

/-- C6: on every reachable instance, `get(i)` and `get_mut(i)` return the
empty indicator exactly when `i ≥ len()`, and otherwise the i-th logical
element (in push order, from whichever storage is active).  Both are pure
reads in the embedding — they return values without producing a new state,
so they change neither `length` nor the storage mode. -/
theorem c6_get_bounds_checked (v : TinyVec T N) (hv : v.Reachable) (i : Nat) :
    v.get i = some (v.toList.get? i) ∧ v.getMut i = v.get i ∧
      (v.toList.get? i = none ↔ v.len ≤ i) ∧ v.toList.length = v.len := by
  have hinv := reach_inv hv
  have hlen : v.toList.length = v.length := toList_length hinv
  refine ⟨get_spec hinv i, rfl, ?_, hlen⟩
  rw [List.get?_eq_getElem?]
  constructor
  · intro hn
    by_contra hlt
    rw [List.getElem?_eq_getElem (show i < v.toList.length by
      rw [hlen]
      exact Nat.lt_of_not_le hlt)] at hn
    cases hn
  · intro hle
    exact List.getElem?_eq_none (by rw [hlen]; exact hle)

/-- Witness for C6: the Inline capacity-4 instance holding `[5]`, queried
in bounds (index 0). -/
theorem c6_get_bounds_checked_witness :
    (⟨TinyVecInner.Stack [some 5, none, none, none], 1⟩ : TinyVec Int 4).get 0 =
      some ((⟨TinyVecInner.Stack [some 5, none, none, none], 1⟩ : TinyVec Int 4).toList.get? 0) ∧
    (⟨TinyVecInner.Stack [some 5, none, none, none], 1⟩ : TinyVec Int 4).getMut 0 =
      (⟨TinyVecInner.Stack [some 5, none, none, none], 1⟩ : TinyVec Int 4).get 0 ∧
    ((⟨TinyVecInner.Stack [some 5, none, none, none], 1⟩ : TinyVec Int 4).toList.get? 0 = none ↔
      (⟨TinyVecInner.Stack [some 5, none, none, none], 1⟩ : TinyVec Int 4).len ≤ 0) ∧
    (⟨TinyVecInner.Stack [some 5, none, none, none], 1⟩ : TinyVec Int 4).toList.length =
      (⟨TinyVecInner.Stack [some 5, none, none, none], 1⟩ : TinyVec Int 4).len :=
  c6_get_bounds_checked ⟨TinyVecInner.Stack [some 5, none, none, none], 1⟩
    (@TinyVec.Reachable.push Int 4 TinyVec.new ⟨TinyVecInner.Stack [some 5, none, none, none], 1⟩ 5
      TinyVec.Reachable.new (by decide)) 0

/-- C8: every sequence of `push`, `pop`, `extend` and `get_mut` writes
starting from `new()` preserves the Inline invariant (`length ≤ N`, slots
`0..length` occupied by the logical elements in order, slots `length..N`
empty); consequently `spill` never panics (its per-slot `unwrap` and its
reachable `unreachable!` arm never execute; the second `unreachable!` arm
is structurally impossible in the embedding) and `push` never indexes out
of bounds. -/
theorem c8_invariant_preserved_no_panic (v : TinyVec T N) (hv : v.Reachable) :
    v.Invariant ∧
    (∀ stack, v.inner = TinyVecInner.Stack stack →
      v.len ≤ N ∧ stack.length = N ∧
      stack = v.toList.map some ++ List.replicate (N - v.len) none ∧
      v.toList.length = v.len) ∧
    (v.spill).isSome = true ∧
    (∀ x, (v.push x).isSome = true) := by
  have hinv := reach_inv hv
  refine ⟨hinv, ?_, ?_, ?_⟩
  · intro stack hs
    have hlen := toList_length hinv
    obtain ⟨inner, len⟩ := v
    cases inner with
    | Stack stack0 =>
        injection hs with hs2
        rw [← hs2]
        rw [invariant_mk_stack] at hinv
        obtain ⟨hle, hslen, elems, helen, hstack⟩ := hinv
        rw [toList_eq_of_stack stack0 len elems helen hstack]
        exact ⟨hle, hslen, hstack, helen⟩
    | Heap heap => cases hs
  · obtain ⟨v1, hsp, _⟩ := spill_spec hinv
    rw [hsp]
    rfl
  · intro x
    obtain ⟨v2, hp, _⟩ := push_spec hinv x
    rw [hp]
    rfl

/-- Witness for C8: the full Inline capacity-2 instance `[3, 4]`, on which
the next push must spill without panicking. -/
theorem c8_invariant_preserved_no_panic_witness :
    (⟨TinyVecInner.Stack [some 3, some 4], 2⟩ : TinyVec Int 2).Invariant ∧
    (∀ stack, (⟨TinyVecInner.Stack [some 3, some 4], 2⟩ : TinyVec Int 2).inner =
        TinyVecInner.Stack stack →
      (⟨TinyVecInner.Stack [some 3, some 4], 2⟩ : TinyVec Int 2).len ≤ 2 ∧ stack.length = 2 ∧
      stack = (⟨TinyVecInner.Stack [some 3, some 4], 2⟩ : TinyVec Int 2).toList.map some ++
        List.replicate (2 - (⟨TinyVecInner.Stack [some 3, some 4], 2⟩ : TinyVec Int 2).len) none ∧
      (⟨TinyVecInner.Stack [some 3, some 4], 2⟩ : TinyVec Int 2).toList.length =
        (⟨TinyVecInner.Stack [some 3, some 4], 2⟩ : TinyVec Int 2).len) ∧
    ((⟨TinyVecInner.Stack [some 3, some 4], 2⟩ : TinyVec Int 2).spill).isSome = true ∧
    (∀ x, ((⟨TinyVecInner.Stack [some 3, some 4], 2⟩ : TinyVec Int 2).push x).isSome = true) :=
  c8_invariant_preserved_no_panic ⟨TinyVecInner.Stack [some 3, some 4], 2⟩
    (@TinyVec.Reachable.extend Int 2 TinyVec.new ⟨TinyVecInner.Stack [some 3, some 4], 2⟩
      [3, 4] TinyVec.Reachable.new (by decide))

/-- C9: `push` leaves every previously stored element unchanged (including
on the spilling push), and `pop` leaves every element below the new length
unchanged, as observed through `get`. -/
theorem c9_push_pop_frame (v : TinyVec T N) (hv : v.Reachable) :
    (∀ (x : T) (v2 : TinyVec T N), v.push x = some v2 →
      ∀ i, i < v.len → v2.get i = v.get i) ∧
    (∀ (v2 : TinyVec T N) (r : Option T), v.pop = some (v2, r) →
      ∀ i, i < v2.len → v2.get i = v.get i) := by
  have hinv := reach_inv hv
  have hlen : v.toList.length = v.length := toList_length hinv
  constructor
  · intro x v2 hp i hi
    have hi' : i < v.length := hi
    obtain ⟨v2', hp', hinv2, _, hlist2, _⟩ := push_spec hinv x
    obtain rfl : v2' = v2 := by injection hp'.symm.trans hp
    rw [get_spec hinv2 i, get_spec hinv i, hlist2]
    simp only [List.get?_eq_getElem?]
    rw [List.getElem?_append, if_pos (by omega)]
  · intro v2 r hp i hi
    obtain ⟨v2', r', hp', hinv2, _, h0, hne⟩ := pop_spec hinv
    have h12 := hp'.symm.trans hp
    simp only [Option.some.injEq, Prod.mk.injEq] at h12
    obtain ⟨h1, h2⟩ := h12
    subst h1
    by_cases hz : v.length = 0
    · rw [(h0 hz).1]
    · obtain ⟨hlen2, hlist2, -⟩ := hne hz
      have hi' : i < v2'.length := hi
      rw [get_spec hinv2 i, get_spec hinv i, hlist2]
      simp only [List.get?_eq_getElem?]
      rw [List.dropLast_eq_take, List.getElem?_take, if_pos (by omega)]

/-- Witness for C9: the Inline capacity-4 instance `[5]` (reached by one
push), with the frame conditions instantiated. -/
theorem c9_push_pop_frame_witness :
    (∀ (x : Int) (v2 : TinyVec Int 4),
      (⟨TinyVecInner.Stack [some 5, none, none, none], 1⟩ : TinyVec Int 4).push x = some v2 →
      ∀ i, i < (⟨TinyVecInner.Stack [some 5, none, none, none], 1⟩ : TinyVec Int 4).len →
        v2.get i = (⟨TinyVecInner.Stack [some 5, none, none, none], 1⟩ : TinyVec Int 4).get i) ∧
    (∀ (v2 : TinyVec Int 4) (r : Option Int),
      (⟨TinyVecInner.Stack [some 5, none, none, none], 1⟩ : TinyVec Int 4).pop = some (v2, r) →
      ∀ i, i < v2.len →
        v2.get i = (⟨TinyVecInner.Stack [some 5, none, none, none], 1⟩ : TinyVec Int 4).get i) :=
  c9_push_pop_frame ⟨TinyVecInner.Stack [some 5, none, none, none], 1⟩
    (@TinyVec.Reachable.push Int 4 TinyVec.new ⟨TinyVecInner.Stack [some 5, none, none, none], 1⟩ 5
      TinyVec.Reachable.new (by decide))
